import Mathlib

/-!
Verification of the `pick-interesting-compounds` analysis pipeline.

The pipeline loads per-arity tables of machine-learning stability
predictions, tags each row with its chemical-system key, deduplicates to
the most stable row per system, enumerates candidate systems
combinatorially, and applies boolean element-set filters that append
their top picks to a global collector list.

The embedding below models:
  * `get_elems`      — the chemical-system key of a composition string,
    built from the element tokens matched by the pattern
    "one uppercase letter optionally followed by one lowercase letter";
  * `get_most_stable` — ascending sort by predicted instability followed
    by keep-first deduplication on the system key (pandas
    `sort_values` / `drop_duplicates(keep='first')`; the sort is modelled
    as a stable ascending sort, the tie-break the specification fixes);
  * `assemble_list_of_systems` — all combinations of `order` distinct
    elements from the allowed-element list, each with its canonical key;
  * `run_filter`     — predicate filtering of candidate systems,
    intersection with the deduplicated predictions, top selection, and
    the append to the collector of interesting compounds.

Predicted instability values are modelled as integers (only their linear
order matters to the pipeline).
-/

/-- A character in the ASCII range `A`–`Z`, as matched by the leading
character class of the element-token pattern. -/
def isUpperChar (c : Char) : Bool := decide (65 ≤ c.toNat ∧ c.toNat ≤ 90)

/-- A character in the ASCII range `a`–`z`, as matched by the optional
trailing character class of the element-token pattern. -/
def isLowerChar (c : Char) : Bool := decide (97 ≤ c.toNat ∧ c.toNat ≤ 122)

/-- All element-symbol tokens of a character stream: the regular
expression `[A-Z][a-z]?` applied left to right, skipping characters that
match no token (`elem_re.findall`). -/
def findElems : List Char → List String
  | [] => []
  | [c] => if isUpperChar c then [String.mk [c]] else []
  | c :: d :: rest =>
    if isUpperChar c then
      if isLowerChar d then String.mk [c, d] :: findElems rest
      else String.mk [c] :: findElems (d :: rest)
    else findElems (d :: rest)

/-- A string that is exactly one element-symbol token: one uppercase
letter optionally followed by one lowercase letter. Every element symbol
the pipeline's vocabulary contains has this shape, since the vocabulary
is built from the tokens `findElems` extracts. -/
def isValidSymbol (t : String) : Bool :=
  match t.toList with
  | [c] => isUpperChar c
  | [c, d] => isUpperChar c && isLowerChar d
  | _ => false

/-- Lexicographic comparison of character streams by code point, with a
proper initial segment ordered before its extensions — the comparison
Python uses on strings. -/
def charListLe : List Char → List Char → Bool
  | [], _ => true
  | _ :: _, [] => false
  | c :: cs, d :: ds =>
    if c.toNat < d.toNat then true
    else if d.toNat < c.toNat then false
    else charListLe cs ds

/-- Lexicographic comparison of strings by code point. -/
def strLe (a b : String) : Prop := charListLe a.toList b.toList = true

instance : DecidableRel strLe := fun a b =>
  inferInstanceAs (Decidable (charListLe a.toList b.toList = true))

/-- Lexicographic ascending sort of a list of strings (Python `sorted`). -/
def sortStrings (l : List String) : List String :=
  List.insertionSort strLe l

/-- Concatenation of a list of strings (Python `''.join`). -/
def joinStrings (ts : List String) : String :=
  ((ts.map String.toList).flatten).asString

/-- Canonical chemical-system key of a composition string: extract the
element tokens, deduplicate, sort lexicographically, concatenate. -/
def get_elems (s : String) : String :=
  joinStrings (sortStrings (findElems s.toList).dedup)

/-- One row of a prediction table: the composition string, the predicted
formation energy, the predicted instability (the deduplication sort key)
and the derived chemical-system key. -/
structure Row where
  composition : String
  delta_e : Int
  stability_predicted : Int
  system : String
deriving DecidableEq, Repr

/-- Ascending comparison on the predicted instability, the key of the
deduplication sort. -/
def rowLe (a b : Row) : Prop := a.stability_predicted ≤ b.stability_predicted

instance : DecidableRel rowLe := fun a b =>
  inferInstanceAs (Decidable (a.stability_predicted ≤ b.stability_predicted))

instance : IsTotal Row rowLe := ⟨fun a b => Int.le_total _ _⟩

instance : IsTrans Row rowLe := ⟨fun _ _ _ => Int.le_trans⟩

/-- Keep-first deduplication on the system key
(`drop_duplicates('system', keep='first')`): scan the rows in order and
keep a row exactly when its system key has not been seen before. -/
def dropDupSystem (seen : List String) : List Row → List Row
  | [] => []
  | r :: rest =>
    if r.system ∈ seen then dropDupSystem seen rest
    else r :: dropDupSystem (r.system :: seen) rest

/-- Most stable entry per system: sort ascending by predicted
instability, then keep the first row of each system key. -/
def get_most_stable (data : List Row) : List Row :=
  dropDupSystem [] (List.insertionSort rowLe data)

/-- One row of a candidate-system table: the element combination and its
canonical system key. -/
structure SystemRow where
  elements : List String
  system : String
deriving DecidableEq, Repr

/-- All candidate systems with `order` distinct elements drawn from the
allowed-element list (`itertools.combinations`), each tagged with its
canonical sorted-concatenated key. -/
def assemble_list_of_systems (element_list : List String) (order : Nat) :
    List SystemRow :=
  (List.sublistsLen order element_list).map
    (fun s => ⟨s, joinStrings (sortStrings s)⟩)

/-- The filter operation. Arguments: predicate `f` on element sets, the
candidate-system table, the deduplicated compound table, the top-count
parameter `ntop`, and the current collector list. Returns the new
collector, the match count, and the selected compositions. The selection
is `results.head(2)` exactly as in the source: the literal constant `2`,
not `ntop`. -/
def run_filter (f : List String → Bool) (systems : List SystemRow)
    (compounds : List Row) (ntop : Nat) (collector : List String) :
    List String × Nat × List String :=
  let possible_systems := (systems.filter (fun s => f s.elements)).map
    (fun s => s.system)
  let results := compounds.filter (fun c => possible_systems.contains c.system)
  let top_comps := (results.take 2).map (fun c => c.composition)
  (collector ++ top_comps, results.length, top_comps)

/-- The arguments of one `run_filter` invocation. -/
structure FilterCall where
  pred : List String → Bool
  systems : List SystemRow
  compounds : List Row
  ntop : Nat

/-- The compositions one invocation selects (independent of the
collector's prior contents). -/
def selectionOf (c : FilterCall) : List String :=
  (run_filter c.pred c.systems c.compounds c.ntop []).2.2

/-- Run a sequence of filter invocations against the collector, each one
extending it with its selection. -/
def runSequence (calls : List FilterCall) (collector : List String) :
    List String :=
  calls.foldl
    (fun col c => (run_filter c.pred c.systems c.compounds c.ntop col).1)
    collector

/-- The mutable state visible to `run_filter`: the two input tables and
the global collector of interesting compounds. -/
structure PipelineState where
  systems : List SystemRow
  compounds : List Row
  collector : List String

/-- The filter operation as a transformer of the pipeline state: it
reads the tables from the state and writes back only the collector. -/
def run_filter_state (f : List String → Bool) (ntop : Nat)
    (st : PipelineState) : PipelineState × Nat × List String :=
  let out := run_filter f st.systems st.compounds ntop st.collector
  (⟨st.systems, st.compounds, out.1⟩, out.2)

/-- The alkali-metal reference list used by the membership predicates. -/
def alkali_metals : List String := ["Li", "Na", "K"]

/-- The halogen reference list used by the membership predicates. -/
def halogens : List String := ["F", "Cl", "Br", "I"]

/-- The alkali-containing predicate: some element is Li, Na or K. -/
def f_alkali (els : List String) : Bool :=
  els.any (fun e => alkali_metals.contains e)

/-- The alkali-containing, halogen-free predicate. -/
def f_alkali_halogen_free (els : List String) : Bool :=
  els.any (fun e => alkali_metals.contains e) &&
    !(els.any (fun e => halogens.contains e))

/-! ### Order facts about the string comparison -/

theorem char_toNat_inj {c d : Char} (h : c.toNat = d.toNat) : c = d := by
  have h2 := congrArg Char.ofNat h
  rwa [Char.ofNat_toNat, Char.ofNat_toNat] at h2

theorem charListLe_total :
    ∀ l₁ l₂ : List Char, charListLe l₁ l₂ = true ∨ charListLe l₂ l₁ = true
  | [], _ => Or.inl rfl
  | _ :: _, [] => Or.inr rfl
  | c :: cs, d :: ds => by
    simp only [charListLe]
    rcases Nat.lt_trichotomy c.toNat d.toNat with h | h | h
    · left
      simp [h]
    · simp [h, Nat.lt_irrefl]
      exact charListLe_total cs ds
    · right
      simp [h]

theorem charListLe_trans :
    ∀ l₁ l₂ l₃ : List Char, charListLe l₁ l₂ = true → charListLe l₂ l₃ = true →
      charListLe l₁ l₃ = true
  | [], _, _, _, _ => rfl
  | _ :: _, [], _, h1, _ => by simp [charListLe] at h1
  | _ :: _, _ :: _, [], _, h2 => by simp [charListLe] at h2
  | a :: as, b :: bs, c :: cs, h1, h2 => by
    simp only [charListLe] at h1 h2 ⊢
    by_cases hab : a.toNat < b.toNat
    · by_cases hbc : b.toNat < c.toNat
      · simp [Nat.lt_trans hab hbc]
      · by_cases hcb : c.toNat < b.toNat
        · simp [hbc, hcb] at h2
        · have hac : a.toNat < c.toNat := by omega
          simp [hac]
    · by_cases hba : b.toNat < a.toNat
      · simp [hab, hba] at h1
      · by_cases hbc : b.toNat < c.toNat
        · have hac : a.toNat < c.toNat := by omega
          simp [hac]
        · by_cases hcb : c.toNat < b.toNat
          · simp [hbc, hcb] at h2
          · have hac : ¬a.toNat < c.toNat := by omega
            have hca : ¬c.toNat < a.toNat := by omega
            simp [hab, hba] at h1
            simp [hbc, hcb] at h2
            simp [hac, hca]
            exact charListLe_trans as bs cs h1 h2

theorem charListLe_antisymm :
    ∀ l₁ l₂ : List Char, charListLe l₁ l₂ = true → charListLe l₂ l₁ = true →
      l₁ = l₂
  | [], [], _, _ => rfl
  | [], _ :: _, _, h2 => by simp [charListLe] at h2
  | _ :: _, [], h1, _ => by simp [charListLe] at h1
  | a :: as, b :: bs, h1, h2 => by
    simp only [charListLe] at h1 h2
    rcases Nat.lt_trichotomy a.toNat b.toNat with h | h | h
    · simp [h, Nat.lt_asymm h] at h2
    · simp [h, Nat.lt_irrefl] at h1 h2
      rw [char_toNat_inj h, charListLe_antisymm as bs h1 h2]
    · simp [h, Nat.lt_asymm h] at h1

instance : IsTotal String strLe := ⟨fun a b => charListLe_total a.toList b.toList⟩

instance : IsTrans String strLe :=
  ⟨fun _ _ _ h1 h2 => charListLe_trans _ _ _ h1 h2⟩

instance : IsAntisymm String strLe :=
  ⟨fun a b h1 h2 => String.toList_inj.mp (charListLe_antisymm _ _ h1 h2)⟩

/-! ### Deduplication lemmas -/

theorem dropDupSystem_sublist :
    ∀ (seen : List String) (l : List Row),
      List.Sublist (dropDupSystem seen l) l
  | _, [] => List.Sublist.refl []
  | seen, r :: rest => by
    unfold dropDupSystem
    by_cases h : r.system ∈ seen
    · simp only [h, if_pos]
      exact (dropDupSystem_sublist seen rest).cons r
    · simp only [h, if_neg, not_false_iff]
      exact (dropDupSystem_sublist (r.system :: seen) rest).cons₂ r

theorem mem_dropDupSystem_not_seen :
    ∀ {seen : List String} {l : List Row} {x : Row},
      x ∈ dropDupSystem seen l → x.system ∉ seen := by
  intro seen l
  induction l generalizing seen with
  | nil => intro x hx; simp [dropDupSystem] at hx
  | cons r rest ih =>
    intro x hx
    unfold dropDupSystem at hx
    by_cases h : r.system ∈ seen
    · simp only [h, if_pos] at hx
      exact ih hx
    · simp only [h, if_neg, not_false_iff, List.mem_cons] at hx
      rcases hx with rfl | hx
      · exact h
      · have := ih hx
        simp only [List.mem_cons, not_or] at this
        exact this.2

theorem dropDupSystem_min :
    ∀ {seen : List String} {l : List Row}, l.Pairwise rowLe →
      ∀ {x : Row}, x ∈ dropDupSystem seen l →
      ∀ y ∈ l, y.system = x.system →
        x.stability_predicted ≤ y.stability_predicted := by
  intro seen l
  induction l generalizing seen with
  | nil => intro _ x hx; simp [dropDupSystem] at hx
  | cons r rest ih =>
    intro hp x hx y hy hsys
    have hp1 : ∀ b ∈ rest, rowLe r b := fun b hb => List.rel_of_pairwise_cons hp hb
    have hp2 : rest.Pairwise rowLe := (List.pairwise_cons.mp hp).2
    unfold dropDupSystem at hx
    by_cases h : r.system ∈ seen
    · simp only [h, if_pos] at hx
      rcases List.mem_cons.mp hy with rfl | hy
      · exact absurd (hsys ▸ h) (mem_dropDupSystem_not_seen hx)
      · exact ih hp2 hx y hy hsys
    · simp only [h, if_neg, not_false_iff, List.mem_cons] at hx
      rcases hx with rfl | hx
      · rcases List.mem_cons.mp hy with rfl | hy
        · exact le_refl _
        · exact hp1 y hy
      · rcases List.mem_cons.mp hy with rfl | hy
        · have := mem_dropDupSystem_not_seen hx
          simp only [List.mem_cons, not_or] at this
          exact absurd hsys.symm this.1
        · exact ih hp2 hx y hy hsys

theorem dropDupSystem_keys_nodup :
    ∀ (seen : List String) (l : List Row),
      ((dropDupSystem seen l).map (fun r => r.system)).Nodup
  | _, [] => List.nodup_nil
  | seen, r :: rest => by
    unfold dropDupSystem
    by_cases h : r.system ∈ seen
    · simp only [h, if_pos]
      exact dropDupSystem_keys_nodup seen rest
    · simp only [h, if_neg, not_false_iff, List.map_cons, List.nodup_cons]
      refine ⟨?_, dropDupSystem_keys_nodup (r.system :: seen) rest⟩
      intro hmem
      rcases List.mem_map.mp hmem with ⟨x, hx, hxs⟩
      have := mem_dropDupSystem_not_seen hx
      simp only [List.mem_cons, not_or] at this
      exact this.1 hxs

theorem dropDupSystem_eq_self :
    ∀ {seen : List String} {l : List Row},
      (l.map (fun r => r.system)).Nodup → (∀ x ∈ l, x.system ∉ seen) →
      dropDupSystem seen l = l := by
  intro seen l
  induction l generalizing seen with
  | nil => intro _ _; rfl
  | cons r rest ih =>
    intro hnd hout
    have h : r.system ∉ seen := hout r (List.mem_cons_self r rest)
    unfold dropDupSystem
    simp only [h, if_neg, not_false_iff]
    congr 1
    simp only [List.map_cons, List.nodup_cons] at hnd
    refine ih hnd.2 ?_
    intro x hx
    simp only [List.mem_cons, not_or]
    constructor
    · intro hxr
      exact hnd.1 (hxr ▸ List.mem_map.mpr ⟨x, hx, rfl⟩)
    · exact hout x (List.mem_cons_of_mem r hx)

theorem exists_mem_dropDupSystem :
    ∀ {seen : List String} {l : List Row} {k : String}, k ∉ seen →
      (∃ x ∈ l, x.system = k) → ∃ x ∈ dropDupSystem seen l, x.system = k := by
  intro seen l
  induction l generalizing seen with
  | nil => intro k _ hx; simp at hx
  | cons r rest ih =>
    intro k hk hx
    unfold dropDupSystem
    by_cases h : r.system ∈ seen
    · simp only [h, if_pos]
      rcases hx with ⟨x, hx, hxk⟩
      rcases List.mem_cons.mp hx with rfl | hx
      · exact absurd (hxk ▸ h) hk
      · exact ih hk ⟨x, hx, hxk⟩
    · simp only [h, if_neg, not_false_iff]
      by_cases hrk : r.system = k
      · exact ⟨r, List.mem_cons_self _ _, hrk⟩
      · rcases hx with ⟨x, hx, hxk⟩
        rcases List.mem_cons.mp hx with rfl | hx
        · exact absurd hxk hrk
        · have hk2 : k ∉ r.system :: seen := by
            simp only [List.mem_cons, not_or]
            exact ⟨fun hkr => hrk hkr.symm, hk⟩
          rcases ih hk2 ⟨x, hx, hxk⟩ with ⟨z, hz, hzk⟩
          exact ⟨z, List.mem_cons_of_mem r hz, hzk⟩

theorem dropDupSystem_first_occurrence :
    ∀ {seen : List String} {l : List Row} {x : Row},
      x ∈ dropDupSystem seen l →
      ∃ l₁ l₂, l = l₁ ++ x :: l₂ ∧ ∀ y ∈ l₁, y.system ≠ x.system := by
  intro seen l
  induction l generalizing seen with
  | nil => intro x hx; simp [dropDupSystem] at hx
  | cons r rest ih =>
    intro x hx
    unfold dropDupSystem at hx
    by_cases h : r.system ∈ seen
    · simp only [h, if_pos] at hx
      have hxs : x.system ∉ seen := mem_dropDupSystem_not_seen hx
      rcases ih hx with ⟨l₁, l₂, heq, hne⟩
      refine ⟨r :: l₁, l₂, by rw [heq, List.cons_append], ?_⟩
      intro y hy
      rcases List.mem_cons.mp hy with rfl | hy
      · exact fun hrx => hxs (hrx ▸ h)
      · exact hne y hy
    · simp only [h, if_neg, not_false_iff, List.mem_cons] at hx
      rcases hx with rfl | hx
      · exact ⟨[], rest, rfl, by simp⟩
      · have hxs : x.system ∉ r.system :: seen := mem_dropDupSystem_not_seen hx
        simp only [List.mem_cons, not_or] at hxs
        rcases ih hx with ⟨l₁, l₂, heq, hne⟩
        refine ⟨r :: l₁, l₂, by rw [heq, List.cons_append], ?_⟩
        intro y hy
        rcases List.mem_cons.mp hy with rfl | hy
        · exact fun hrx => hxs.1 hrx.symm
        · exact hne y hy

/-! ### Claim theorems -/

/-- C2: for every input table and every chemical-system key present in
it, the row the deduplication retains for that key has the minimum
predicted-instability value among all rows of the input with that key:
no row with the same system and strictly lower instability exists in the
original input. -/
theorem get_most_stable_retains_min (data : List Row) (k : String)
    (hk : ∃ x ∈ data, x.system = k) :
    ∃ r ∈ get_most_stable data, r.system = k ∧ r ∈ data ∧
      ∀ r' ∈ data, r'.system = k →
        r.stability_predicted ≤ r'.stability_predicted := by
  have hperm : List.Perm (List.insertionSort rowLe data) data :=
    List.perm_insertionSort rowLe data
  have hsorted : (List.insertionSort rowLe data).Pairwise rowLe :=
    List.sorted_insertionSort rowLe data
  have hk' : ∃ x ∈ List.insertionSort rowLe data, x.system = k := by
    rcases hk with ⟨x, hx, hxk⟩
    exact ⟨x, hperm.mem_iff.mpr hx, hxk⟩
  rcases exists_mem_dropDupSystem (List.not_mem_nil k) hk' with ⟨r, hr, hrk⟩
  refine ⟨r, hr, hrk, ?_, ?_⟩
  · exact hperm.subset ((dropDupSystem_sublist _ _).subset hr)
  · intro r' hr' hr'k
    exact dropDupSystem_min hsorted hr r' (hperm.mem_iff.mpr hr')
      (hr'k.trans hrk.symm)

/-- Demonstration table: two rows of the chemical system `ClNa` with
distinct instability values. -/
def dedupDemo : List Row :=
  [⟨"NaCl", -1, 5, "ClNa"⟩, ⟨"Na2Cl", -2, 3, "ClNa"⟩]

/-- Witness for C2 at a concrete table: the system `ClNa` is present, so
the deduplicated table retains a minimal row for it. -/
theorem get_most_stable_retains_min_witness :
    (∃ x ∈ dedupDemo, x.system = "ClNa") ∧
      ∃ r ∈ get_most_stable dedupDemo, r.system = "ClNa" ∧ r ∈ dedupDemo ∧
        ∀ r' ∈ dedupDemo, r'.system = "ClNa" →
          r.stability_predicted ≤ r'.stability_predicted :=
  ⟨by decide, get_most_stable_retains_min dedupDemo "ClNa" (by decide)⟩

/-- C4: deduplication is idempotent — applying `get_most_stable` to its
own output yields a table equal to that output. -/
theorem get_most_stable_idempotent (data : List Row) :
    get_most_stable (get_most_stable data) = get_most_stable data := by
  have hsorted : (get_most_stable data).Pairwise rowLe :=
    (List.sorted_insertionSort rowLe data).sublist (dropDupSystem_sublist _ _)
  have hkeys : ((get_most_stable data).map (fun r => r.system)).Nodup :=
    dropDupSystem_keys_nodup _ _
  show dropDupSystem [] (List.insertionSort rowLe (get_most_stable data)) =
    get_most_stable data
  rw [List.Sorted.insertionSort_eq hsorted]
  exact dropDupSystem_eq_self hkeys (fun x _ => List.not_mem_nil _)

/-- C6: ties on the minimal instability value are broken by original row
order. Every row the deduplication retains is the first row of the
original table that has its system key and its (minimal) instability
value, so when two or more rows of a system tie at the minimum, the
earliest one wins. -/
theorem get_most_stable_tie_first_occurrence (data : List Row) (r : Row)
    (hr : r ∈ get_most_stable data) :
    (data.filter (fun x => x.system == r.system &&
        x.stability_predicted == r.stability_predicted)).head? = some r := by
  set p : Row → Bool := fun x => x.system == r.system &&
    x.stability_predicted == r.stability_predicted with hp
  have hpair : (data.filter p).Pairwise rowLe := by
    apply List.pairwise_of_forall_mem_list
    intro a ha b hb
    have ha2 := (List.mem_filter.mp ha).2
    have hb2 := (List.mem_filter.mp hb).2
    rw [hp] at ha2 hb2
    simp only [Bool.and_eq_true, beq_iff_eq] at ha2 hb2
    show a.stability_predicted ≤ b.stability_predicted
    rw [ha2.2, hb2.2]
  have hsubl : List.Sublist (data.filter p)
      (List.insertionSort rowLe data) :=
    List.sublist_insertionSort hpair (List.filter_sublist data)
  have hself : (data.filter p).filter p = data.filter p :=
    List.filter_eq_self.mpr (fun a ha => (List.mem_filter.mp ha).2)
  have hsub2 : List.Sublist (data.filter p)
      ((List.insertionSort rowLe data).filter p) := hself ▸ hsubl.filter p
  have hperm : List.Perm ((List.insertionSort rowLe data).filter p)
      (data.filter p) := (List.perm_insertionSort rowLe data).filter p
  have heq : data.filter p = (List.insertionSort rowLe data).filter p :=
    hsub2.eq_of_length hperm.length_eq.symm
  rcases dropDupSystem_first_occurrence hr with ⟨l₁, l₂, hdec, hne⟩
  have hl1 : l₁.filter p = [] := by
    apply List.filter_eq_nil_iff.mpr
    intro y hy
    rw [hp]
    simp only [Bool.and_eq_true, beq_iff_eq, not_and]
    exact fun h _ => hne y hy h
  have hpr : p r = true := by rw [hp]; simp
  rw [heq, hdec, List.filter_append, hl1, List.nil_append,
    List.filter_cons_of_pos hpr, List.head?_cons]

/-- Demonstration table for the tie-break: two rows of system `AB` tie
at the minimal instability value 3; a third row of the same system is
less stable. -/
def tieDemo : List Row :=
  [⟨"A2B", 0, 3, "AB"⟩, ⟨"AB2", 1, 3, "AB"⟩, ⟨"A3B", 2, 7, "AB"⟩]

/-- Witness for C6 at a concrete table: the retained row for the tied
system `AB` is the first of the two tied rows in original order. -/
theorem get_most_stable_tie_first_occurrence_witness :
    (⟨"A2B", 0, 3, "AB"⟩ : Row) ∈ get_most_stable tieDemo ∧
      (tieDemo.filter (fun x => x.system == "AB" &&
        x.stability_predicted == 3)).head? = some ⟨"A2B", 0, 3, "AB"⟩ :=
  ⟨by decide,
    get_most_stable_tie_first_occurrence tieDemo ⟨"A2B", 0, 3, "AB"⟩
      (by decide)⟩

/-- Demonstration candidate-system table with the single system `ClNa`. -/
def filterDemoSystems : List SystemRow := [⟨["Na", "Cl"], "ClNa"⟩]

/-- Demonstration deduplicated table with two rows of system `ClNa`. -/
def filterDemoCompounds : List Row :=
  [⟨"NaCl", -1, 1, "ClNa"⟩, ⟨"Na2Cl", -2, 2, "ClNa"⟩]

/-- C1 (failing behaviour): `run_filter` ignores its `ntop` argument
entirely — the selection is the hard-coded `head(2)` — so with
`ntop = 1` and two matching rows it still selects and appends 2
compositions instead of `min 1 2 = 1`. -/
theorem run_filter_ignores_ntop :
    (∀ (f : List String → Bool) (systems : List SystemRow)
        (compounds : List Row) (n₁ n₂ : Nat) (collector : List String),
        run_filter f systems compounds n₁ collector =
          run_filter f systems compounds n₂ collector) ∧
      (run_filter (fun _ => true) filterDemoSystems filterDemoCompounds 1
        []).2.2.length = 2 ∧ Nat.min 1 2 = 1 :=
  ⟨fun _ _ _ _ _ _ => rfl, by decide, rfl⟩

/-- C7: when no candidate system satisfies the predicate, or no
deduplicated row has its key in the matched set, the filter returns
zero matches and an empty selection and leaves the collector unchanged
— no error. -/
theorem run_filter_empty_is_ok (f : List String → Bool)
    (systems : List SystemRow) (compounds : List Row) (ntop : Nat)
    (collector : List String)
    (h : (∀ s ∈ systems, f s.elements = false) ∨
      (∀ c ∈ compounds,
        ((systems.filter (fun s => f s.elements)).map
          (fun s => s.system)).contains c.system = false)) :
    run_filter f systems compounds ntop collector = (collector, 0, []) := by
  have hres : compounds.filter (fun c =>
      ((systems.filter (fun s => f s.elements)).map
        (fun s => s.system)).contains c.system) = [] := by
    cases h with
    | inl h1 =>
      have hsys : systems.filter (fun s => f s.elements) = [] :=
        List.filter_eq_nil_iff.mpr (fun s hs => by simp [h1 s hs])
      apply List.filter_eq_nil_iff.mpr
      intro c _
      rw [hsys]
      simp
    | inr h2 =>
      apply List.filter_eq_nil_iff.mpr
      intro c hc
      simp only [h2 c hc]
      simp
  simp only [run_filter]
  rw [hres]
  simp

/-- Witness for C7 at a concrete call: an all-false predicate matches no
system, so the result is zero matches, an empty selection, and the
collector (here `["X"]`) untouched. -/
theorem run_filter_empty_is_ok_witness :
    ((∀ s ∈ filterDemoSystems, (fun (_ : List String) => false) s.elements
        = false) ∨
      (∀ c ∈ filterDemoCompounds,
        ((filterDemoSystems.filter
          (fun s => (fun (_ : List String) => false) s.elements)).map
          (fun s => s.system)).contains c.system = false)) ∧
      run_filter (fun _ => false) filterDemoSystems filterDemoCompounds 2
        ["X"] = (["X"], 0, []) :=
  ⟨Or.inl (by decide),
    run_filter_empty_is_ok (fun _ => false) filterDemoSystems
      filterDemoCompounds 2 ["X"] (Or.inl (by decide))⟩

/-- C8: the collector is the invocation-ordered concatenation of each
filter invocation's selection: duplicates are kept and the selections of
later invocations follow those of earlier ones. -/
theorem runSequence_concat (calls : List FilterCall)
    (collector : List String) :
    runSequence calls collector =
      collector ++ (calls.map selectionOf).flatten := by
  induction calls generalizing collector with
  | nil => simp [runSequence]
  | cons c cs ih =>
    have hstep : (run_filter c.pred c.systems c.compounds c.ntop
        collector).1 = collector ++ selectionOf c := rfl
    show runSequence cs (run_filter c.pred c.systems c.compounds c.ntop
      collector).1 = _
    rw [hstep, ih]
    simp [List.append_assoc]

/-- C9: a symbol outside a predicate's reference element lists never
matches and never raises: its membership test is `false`, and prepending
it to an element set changes neither the alkali-containing predicate nor
the alkali-containing, halogen-free predicate. -/
theorem unrecognized_symbol_no_match (els : List String) (e : String)
    (h1 : e ∉ alkali_metals) (h2 : e ∉ halogens) :
    (alkali_metals.contains e = false ∧ halogens.contains e = false) ∧
      f_alkali (e :: els) = f_alkali els ∧
      f_alkali_halogen_free (e :: els) = f_alkali_halogen_free els := by
  have hc1 : alkali_metals.contains e = false := by
    simpa using h1
  have hc2 : halogens.contains e = false := by
    simpa using h2
  refine ⟨⟨hc1, hc2⟩, ?_, ?_⟩
  · simp only [f_alkali]
    rw [List.any_cons, hc1, Bool.false_or]
  · simp only [f_alkali_halogen_free]
    rw [List.any_cons, List.any_cons, hc1, hc2, Bool.false_or,
      Bool.false_or]

/-- Witness for C9: the made-up symbol `Xx` is in neither reference
list, so it contributes `false` and leaves both predicates unchanged. -/
theorem unrecognized_symbol_no_match_witness :
    ("Xx" ∉ alkali_metals ∧ "Xx" ∉ halogens) ∧
      (alkali_metals.contains "Xx" = false ∧
        halogens.contains "Xx" = false) ∧
      f_alkali ["Xx", "Li"] = f_alkali ["Li"] ∧
      f_alkali_halogen_free ["Xx", "Li"] = f_alkali_halogen_free ["Li"] :=
  ⟨⟨by decide, by decide⟩,
    unrecognized_symbol_no_match ["Li"] "Xx" (by decide) (by decide)⟩

/-- C10: the filter operation leaves both input tables unchanged; the
only state it mutates is the collector, which it extends append-only
with exactly its selection. -/
theorem run_filter_state_frame (f : List String → Bool) (ntop : Nat)
    (st : PipelineState) :
    (run_filter_state f ntop st).1.systems = st.systems ∧
      (run_filter_state f ntop st).1.compounds = st.compounds ∧
      (run_filter_state f ntop st).1.collector =
        st.collector ++ (run_filter_state f ntop st).2.2 :=
  ⟨rfl, rfl, rfl⟩

/-- C3: the system key depends only on the set of distinct element
tokens of the composition string: two strings whose token lists have the
same members (regardless of order and multiplicity) get the same key. -/
theorem get_elems_depends_on_token_set (s₁ s₂ : String)
    (h1 : ∀ t ∈ findElems s₁.toList, t ∈ findElems s₂.toList)
    (h2 : ∀ t ∈ findElems s₂.toList, t ∈ findElems s₁.toList) :
    get_elems s₁ = get_elems s₂ := by
  unfold get_elems
  congr 1
  have hperm : List.Perm (findElems s₁.toList).dedup
      (findElems s₂.toList).dedup := by
    apply (List.perm_ext_iff_of_nodup (List.nodup_dedup _)
      (List.nodup_dedup _)).mpr
    intro a
    simp only [List.mem_dedup]
    exact ⟨h1 a, h2 a⟩
  exact List.eq_of_perm_of_sorted
    ((List.perm_insertionSort strLe _).trans
      (hperm.trans (List.perm_insertionSort strLe _).symm))
    (List.sorted_insertionSort strLe _)
    (List.sorted_insertionSort strLe _)

/-- Witness for C3: `AlFeFe2` and `FeAlFe` have the same distinct
tokens, so they share the key, which evaluates to `AlFe`. -/
theorem get_elems_depends_on_token_set_witness :
    ((∀ t ∈ findElems "AlFeFe2".toList, t ∈ findElems "FeAlFe".toList) ∧
      (∀ t ∈ findElems "FeAlFe".toList, t ∈ findElems "AlFeFe2".toList)) ∧
      get_elems "AlFeFe2" = get_elems "FeAlFe" ∧
      get_elems "AlFeFe2" = "AlFe" :=
  ⟨⟨by decide, by decide⟩,
    get_elems_depends_on_token_set "AlFeFe2" "FeAlFe" (by decide)
      (by decide),
    by decide⟩

theorem upper_not_lower {c : Char} (h : isUpperChar c = true) :
    isLowerChar c = false := by
  simp only [isUpperChar, decide_eq_true_eq] at h
  simp only [isLowerChar, decide_eq_false_iff_not]
  omega

theorem valid_symbol_cases {t : String} (h : isValidSymbol t = true) :
    (∃ c, t.toList = [c] ∧ isUpperChar c = true) ∨
      ∃ c d, t.toList = [c, d] ∧ isUpperChar c = true ∧
        isLowerChar d = true := by
  unfold isValidSymbol at h
  rcases ht : t.toList with _ | ⟨c, _ | ⟨d, rest⟩⟩
  · rw [ht] at h; simp at h
  · rw [ht] at h
    exact Or.inl ⟨c, rfl, h⟩
  · rw [ht] at h
    cases rest with
    | nil =>
      simp only [Bool.and_eq_true] at h
      exact Or.inr ⟨c, d, rfl, h.1, h.2⟩
    | cons _ _ => simp at h

theorem findElems_singleton_upper {c : Char} (hc : isUpperChar c = true) :
    findElems [c] = [String.mk [c]] := by
  simp [findElems, hc]

theorem findElems_cons_upper_lower {c d : Char} (rest : List Char)
    (hc : isUpperChar c = true) (hd : isLowerChar d = true) :
    findElems (c :: d :: rest) = String.mk [c, d] :: findElems rest := by
  simp [findElems, hc, hd]

theorem findElems_cons_upper_notlower {c d : Char} (rest : List Char)
    (hc : isUpperChar c = true) (hd : isLowerChar d = false) :
    findElems (c :: d :: rest) = String.mk [c] :: findElems (d :: rest) := by
  simp [findElems, hc, hd]

theorem flatten_valid_head :
    ∀ ts : List String, (∀ t ∈ ts, isValidSymbol t = true) →
      (ts = [] ∧ (ts.map String.toList).flatten = []) ∨
        ∃ c rest, (ts.map String.toList).flatten = c :: rest ∧
          isUpperChar c = true
  | [], _ => Or.inl ⟨rfl, rfl⟩
  | t :: ts, hv => by
    right
    have hvt := hv t (List.mem_cons_self t ts)
    rcases valid_symbol_cases hvt with ⟨c, hc, hcu⟩ | ⟨c, d, hcd, hcu, _⟩
    · refine ⟨c, (ts.map String.toList).flatten, ?_, hcu⟩
      rw [List.map_cons, List.flatten_cons, show String.toList t = [c]
        from hc]
      rfl
    · refine ⟨c, d :: (ts.map String.toList).flatten, ?_, hcu⟩
      rw [List.map_cons, List.flatten_cons, show String.toList t = [c, d]
        from hcd]
      rfl

theorem findElems_flatten_of_valid :
    ∀ ts : List String, (∀ t ∈ ts, isValidSymbol t = true) →
      findElems ((ts.map String.toList).flatten) = ts
  | [], _ => rfl
  | t :: ts, hv => by
    have hvt := hv t (List.mem_cons_self t ts)
    have hvts : ∀ u ∈ ts, isValidSymbol u = true :=
      fun u hu => hv u (List.mem_cons_of_mem t hu)
    have ih := findElems_flatten_of_valid ts hvts
    rw [List.map_cons, List.flatten_cons]
    rcases valid_symbol_cases hvt with ⟨c, hc, hcu⟩ | ⟨c, d, hcd, hcu, hdl⟩
    · have ht : t = String.mk [c] := String.toList_inj.mp (by rw [hc]; rfl)
      rw [show String.toList t = [c] from hc]
      rcases flatten_valid_head ts hvts with ⟨hts, hfl⟩ |
          ⟨c', rest, hfl, hcu'⟩
      · rw [hfl, hts]
        show findElems [c] = [t]
        rw [findElems_singleton_upper hcu, ht]
      · rw [hfl]
        show findElems (c :: c' :: rest) = t :: ts
        rw [findElems_cons_upper_notlower rest hcu (upper_not_lower hcu'),
          ← hfl, ih, ← ht]
    · have ht : t = String.mk [c, d] :=
        String.toList_inj.mp (by rw [hcd]; rfl)
      rw [show String.toList t = [c, d] from hcd]
      show findElems (c :: d :: (ts.map String.toList).flatten) = t :: ts
      rw [findElems_cons_upper_lower _ hcu hdl, ih, ← ht]

theorem joinStrings_inj_of_valid {ts₁ ts₂ : List String}
    (h₁ : ∀ t ∈ ts₁, isValidSymbol t = true)
    (h₂ : ∀ t ∈ ts₂, isValidSymbol t = true)
    (heq : joinStrings ts₁ = joinStrings ts₂) : ts₁ = ts₂ := by
  unfold joinStrings at heq
  have hfl := List.asString_inj.mp heq
  rw [← findElems_flatten_of_valid ts₁ h₁,
    ← findElems_flatten_of_valid ts₂ h₂, hfl]

theorem perm_of_sortStrings_eq {s₁ s₂ : List String}
    (h : sortStrings s₁ = sortStrings s₂) : List.Perm s₁ s₂ := by
  unfold sortStrings at h
  exact (List.perm_insertionSort strLe s₁).symm.trans
    (h ▸ List.perm_insertionSort strLe s₂)

theorem sublist_perm_eq_of_nodup :
    ∀ {l s₁ s₂ : List String}, l.Nodup → List.Sublist s₁ l →
      List.Sublist s₂ l → List.Perm s₁ s₂ → s₁ = s₂ := by
  intro l
  induction l with
  | nil =>
    intro s₁ s₂ _ h1 h2 _
    rw [List.sublist_nil.mp h1, List.sublist_nil.mp h2]
  | cons a t ih =>
    intro s₁ s₂ hnd h1 h2 hp
    have hat : a ∉ t := (List.nodup_cons.mp hnd).1
    have hndt : t.Nodup := (List.nodup_cons.mp hnd).2
    cases h1 with
    | cons _ h1' =>
      cases h2 with
      | cons _ h2' => exact ih hndt h1' h2' hp
      | cons₂ _ h2' =>
        exact absurd
          (h1'.subset (hp.mem_iff.mpr (List.mem_cons_self _ _))) hat
    | cons₂ _ h1' =>
      cases h2 with
      | cons _ h2' =>
        exact absurd
          (h2'.subset (hp.symm.mem_iff.mpr (List.mem_cons_self _ _))) hat
      | cons₂ _ h2' => rw [ih hndt h1' h2' hp.cons_inv]

/-- C5: for every duplicate-free allowed-element list of valid element
symbols and every arity in {2, 3, 4}, the enumerator produces exactly
`C(n, k)` rows; each row is a combination of `k` distinct allowed
elements, and no two rows share a canonical system key. -/
theorem assemble_systems_correct (element_list : List String) (k : Nat)
    (hnd : element_list.Nodup)
    (hval : ∀ e ∈ element_list, isValidSymbol e = true)
    (hk : k = 2 ∨ k = 3 ∨ k = 4) :
    (assemble_list_of_systems element_list k).length =
      element_list.length.choose k ∧
      (∀ row ∈ assemble_list_of_systems element_list k,
        row.elements.length = k ∧ row.elements.Nodup ∧
          ∀ e ∈ row.elements, e ∈ element_list) ∧
      ((assemble_list_of_systems element_list k).map
        (fun r => r.system)).Nodup := by
  refine ⟨?_, ?_, ?_⟩
  · simp [assemble_list_of_systems, List.length_sublistsLen]
  · intro row hrow
    simp only [assemble_list_of_systems, List.mem_map] at hrow
    rcases hrow with ⟨s, hs, rfl⟩
    rcases List.mem_sublistsLen.mp hs with ⟨hsub, hlen⟩
    exact ⟨hlen, hnd.sublist hsub, fun e he => hsub.subset he⟩
  · simp only [assemble_list_of_systems, List.map_map]
    have hcomp : ((fun r : SystemRow => r.system) ∘
        fun s => (⟨s, joinStrings (sortStrings s)⟩ : SystemRow)) =
        fun s => joinStrings (sortStrings s) := rfl
    rw [hcomp]
    apply List.Nodup.map_on ?_ (List.nodup_sublistsLen k hnd)
    intro s₁ hs₁ s₂ hs₂ heq
    rcases List.mem_sublistsLen.mp hs₁ with ⟨hsub₁, _⟩
    rcases List.mem_sublistsLen.mp hs₂ with ⟨hsub₂, _⟩
    have hv₁ : ∀ t ∈ sortStrings s₁, isValidSymbol t = true :=
      fun t ht =>
        hval t (hsub₁.subset ((List.perm_insertionSort strLe s₁).subset ht))
    have hv₂ : ∀ t ∈ sortStrings s₂, isValidSymbol t = true :=
      fun t ht =>
        hval t (hsub₂.subset ((List.perm_insertionSort strLe s₂).subset ht))
    exact sublist_perm_eq_of_nodup hnd hsub₁ hsub₂
      (perm_of_sortStrings_eq (joinStrings_inj_of_valid hv₁ hv₂ heq))

/-- Witness for C5 at the 5-element vocabulary {Li, Na, K, O, Fe} and
arity 2: exactly `C(5, 2) = 10` pairwise-distinct binary systems. -/
theorem assemble_systems_correct_witness :
    ((["Li", "Na", "K", "O", "Fe"] : List String).Nodup ∧
      (∀ e ∈ (["Li", "Na", "K", "O", "Fe"] : List String),
        isValidSymbol e = true) ∧
      ((2 : Nat) = 2 ∨ (2 : Nat) = 3 ∨ (2 : Nat) = 4)) ∧
      ((assemble_list_of_systems ["Li", "Na", "K", "O", "Fe"] 2).length =
        (["Li", "Na", "K", "O", "Fe"] : List String).length.choose 2 ∧
        (∀ row ∈ assemble_list_of_systems ["Li", "Na", "K", "O", "Fe"] 2,
          row.elements.length = 2 ∧ row.elements.Nodup ∧
            ∀ e ∈ row.elements,
              e ∈ (["Li", "Na", "K", "O", "Fe"] : List String)) ∧
        ((assemble_list_of_systems ["Li", "Na", "K", "O", "Fe"] 2).map
          (fun r => r.system)).Nodup) :=
  ⟨⟨by decide, by decide, Or.inl rfl⟩,
    assemble_systems_correct ["Li", "Na", "K", "O", "Fe"] 2 (by decide)
      (by decide) (Or.inl rfl)⟩

/-- Sanity evaluation matching the source's own assertion
`assert get_elems('AlFeFe2') == 'AlFe'`. -/
theorem get_elems_source_assertion : get_elems "AlFeFe2" = "AlFe" := by
  decide
